import Mathlib

/-!
Verification of the turl resolution-and-extraction pipeline.

The development shallowly embeds the two core source files of the repository:

* `src/turl-core/src/provider/codex.rs` — candidate search over the two codex
  roots (`sessions`, `archived_sessions`), recency selection, and resolution
  metadata.  The filesystem is modelled as the listing each root's recursive
  traversal yields, in traversal order, together with per-file modification
  times (`none` when the timestamp cannot be read).
* `src/turl-core/src/render.rs` — JSON-lines transcript extraction and the
  markdown renderer.  `serde_json::Value` is modelled by an inductive `Json`
  type and `serde_json::from_str` by an explicit `parse` parameter
  (`none` = the line is not valid JSON); the raw text is given as its list of
  lines, numbered from 1 as in the Rust code.

Rust string primitives (`trim`, `starts_with`, `ends_with`, `join`) are
modelled over the character data of Lean strings.
-/

namespace Turl

/-- Model of Rust `str::trim`: drop whitespace from both ends. -/
def strTrim (s : String) : String :=
  String.mk (((s.data.dropWhile Char.isWhitespace).reverse.dropWhile Char.isWhitespace).reverse)

/-- Model of Rust `str::is_empty`. -/
def strIsEmpty (s : String) : Bool :=
  s.data.isEmpty

/-- Model of Rust `str::starts_with`. -/
def strStartsWith (s pre : String) : Bool :=
  pre.data.isPrefixOf s.data

/-- Model of Rust `str::ends_with`. -/
def strEndsWith (s post : String) : Bool :=
  post.data.isSuffixOf s.data

/-- Model of Rust `Vec::join(sep)` on strings. -/
def joinSep (sep : String) : List String → String
  | [] => ""
  | [x] => x
  | x :: y :: rest => x ++ sep ++ joinSep sep (y :: rest)

/-- Model of `serde_json::Value`. -/
inductive Json where
  | null
  | bool (b : Bool)
  | num (n : Int)
  | str (s : String)
  | arr (items : List Json)
  | obj (fields : List (String × Json))

/-- Model of `serde_json::Value::get` on an object (field lookup). -/
def Json.get (v : Json) (key : String) : Option Json :=
  match v with
  | .obj fields => fields.lookup key
  | _ => none

/-- Model of `serde_json::Value::as_str`. -/
def Json.asStr (v : Json) : Option String :=
  match v with
  | .str s => some s
  | _ => none

/-- Model of `serde_json::Value::as_array`. -/
def Json.asArr (v : Json) : Option (List Json) :=
  match v with
  | .arr items => some items
  | _ => none

/-- Modelled from the spec: `ProviderKind` (src/turl-core/src/model.rs is not among
the sources shown), the closed enumeration of known backends. -/
inductive ProviderKind where
  | Codex
  | Claude
deriving DecidableEq

/-- Modelled from the spec: `MessageRole`, the closed enumeration of message roles. -/
inductive MessageRole where
  | User
  | Assistant
deriving DecidableEq

/-- Modelled from the spec: `ThreadMessage` with a role and a text. -/
structure ThreadMessage where
  role : MessageRole
  text : String
deriving DecidableEq

/-- Modelled from the spec: `ResolutionMeta` with a source tag, a candidate count
and ambiguity warnings. -/
structure ResolutionMeta where
  source : String
  candidate_count : Nat
  warnings : List String
deriving DecidableEq

/-- Modelled from the spec: `ResolvedThread`, the single file selected to answer
the query plus its resolution metadata. -/
structure ResolvedThread where
  provider : ProviderKind
  session_id : String
  path : String
  metadata : ResolutionMeta
deriving DecidableEq

/-- Modelled from the spec: the error taxonomy of src/turl-core/src/error.rs (not
among the sources shown); only the two variants the claims mention are modelled,
and the `cause` payload of `InvalidJsonLine` is dropped. -/
inductive TurlError where
  | invalidJsonLine (path : String) (line : Nat)
  | threadNotFound (provider : ProviderKind) (session_id : String)
      (searched_roots : List String)
deriving DecidableEq

/-- Constant `TOOL_TYPES` from src/turl-core/src/render.rs. -/
def TOOL_TYPES : List String :=
  ["tool_call", "tool_result", "tool_use", "function_call", "function_result",
   "function_response"]

/-- The tool-noise skip test at the top of the item loop of `extract_text`:
the item's `type` field, read as a string, is one of `TOOL_TYPES`. -/
def tool_skip (item : Json) : Bool :=
  match (item.get "type").bind Json.asStr with
  | some item_type => TOOL_TYPES.contains item_type
  | none => false

/-- One field probe of the item loop of `extract_text`: the trimmed text of the
string field `key` when it is present and non-blank after trimming. -/
def text_field (item : Json) (key : String) : Option String :=
  match (item.get key).bind Json.asStr with
  | some text => if strIsEmpty (strTrim text) then none else some (strTrim text)
  | none => none

/-- The body of the item loop of `extract_text`: the chunk one content item
contributes, if any (tool-noise items contribute nothing; otherwise the fields
`text`, `input_text`, `output_text` are probed in that order). -/
def item_chunk (item : Json) : Option String :=
  if tool_skip item then none
  else
    match text_field item "text" with
    | some chunk => some chunk
    | none =>
      match text_field item "input_text" with
      | some chunk => some chunk
      | none => text_field item "output_text"

/-- Function `extract_text` from src/turl-core/src/render.rs. -/
def extract_text (content : Option Json) : String :=
  match content with
  | none => ""
  | some content =>
    match content.asStr with
    | some text => text
    | none =>
      match content.asArr with
      | none => ""
      | some items =>
        let chunks := items.foldl
          (fun chunks item =>
            match item_chunk item with
            | some chunk => chunks ++ [chunk]
            | none => chunks) []
        joinSep "\n\n" chunks

/-- Function `parse_role` from src/turl-core/src/render.rs. -/
def parse_role (role : String) : Option MessageRole :=
  if role = "user" then some MessageRole.User
  else if role = "assistant" then some MessageRole.Assistant
  else none

/-- The shared final step of both per-provider extractors: emit the message
unless its text is blank after trimming. -/
def mk_message (role : MessageRole) (text : String) : Option ThreadMessage :=
  if strIsEmpty (strTrim text) then none else some { role := role, text := text }

/-- Function `extract_codex_message` from src/turl-core/src/render.rs. -/
def extract_codex_message (value : Json) : Option ThreadMessage :=
  match (value.get "type").bind Json.asStr with
  | none => none
  | some record_type =>
    if record_type = "response_item" then
      match value.get "payload" with
      | none => none
      | some payload =>
        match (payload.get "type").bind Json.asStr with
        | none => none
        | some payload_type =>
          if payload_type = "message" then
            match (payload.get "role").bind Json.asStr with
            | none => none
            | some role_str =>
              match parse_role role_str with
              | none => none
              | some role => mk_message role (extract_text (payload.get "content"))
          else none
    else if record_type = "event_msg"
        && (((value.get "payload").bind
              (fun payload => (payload.get "type").bind Json.asStr)).any
            (fun t => t == "agent_message")) then
      mk_message MessageRole.Assistant
        (((value.get "payload").bind
            (fun payload => (payload.get "message").bind Json.asStr)).getD "")
    else none

/-- Function `extract_claude_message` from src/turl-core/src/render.rs. -/
def extract_claude_message (value : Json) : Option ThreadMessage :=
  match (value.get "type").bind Json.asStr with
  | none => none
  | some record_type =>
    if record_type ≠ "user" ∧ record_type ≠ "assistant" then none
    else
      match ((value.get "message")) with
      | none => none
      | some message =>
        match ((message.get "role").bind Json.asStr).or (some record_type) with
        | none => none
        | some role_str =>
          match parse_role role_str with
          | none => none
          | some role => mk_message role (extract_text (message.get "content"))

/-- The loop of `extract_messages` from src/turl-core/src/render.rs, carrying the
1-based number of the current line; `parse` models `serde_json::from_str::<Value>`
(`none`: the line is not valid JSON). -/
def extract_lines (parse : String → Option Json) (provider : ProviderKind)
    (path : String) : Nat → List String → Except TurlError (List ThreadMessage)
  | _, [] => Except.ok []
  | line_no, line :: rest =>
    let trimmed := strTrim line
    if strIsEmpty trimmed then extract_lines parse provider path (line_no + 1) rest
    else
      match parse trimmed with
      | none => Except.error (TurlError.invalidJsonLine path line_no)
      | some value =>
        let extracted :=
          match provider with
          | ProviderKind.Codex => extract_codex_message value
          | ProviderKind.Claude => extract_claude_message value
        match extract_lines parse provider path (line_no + 1) rest with
        | Except.error e => Except.error e
        | Except.ok msgs =>
          Except.ok
            (match extracted with
             | some message => message :: msgs
             | none => msgs)

/-- Function `extract_messages` from src/turl-core/src/render.rs; the raw text is
given as its list of lines (Rust `raw_jsonl.lines()`), numbered from 1. -/
def extract_messages (parse : String → Option Json) (provider : ProviderKind)
    (path : String) (lines : List String) : Except TurlError (List ThreadMessage) :=
  extract_lines parse provider path 1 lines

/-- Modelled from the spec: `ThreadUri` (src/turl-core/src/uri.rs is not among the
sources shown), a provider together with a session id. -/
structure ThreadUri where
  provider : ProviderKind
  session_id : String

/-- Modelled from the spec: the URI scheme of each provider. -/
def scheme : ProviderKind → String
  | ProviderKind.Codex => "codex"
  | ProviderKind.Claude => "claude"

/-- Modelled from the spec: `ThreadUri::as_string`, the `<scheme>://<id>` form of
the identifier. -/
def ThreadUri.as_string (uri : ThreadUri) : String :=
  scheme uri.provider ++ "://" ++ uri.session_id

/-- The role title chosen by the `match message.role` of `render_markdown`. -/
def role_title : MessageRole → String
  | MessageRole.User => "User"
  | MessageRole.Assistant => "Assistant"

/-- Function `render_markdown` from src/turl-core/src/render.rs. -/
def render_markdown (parse : String → Option Json) (uri : ThreadUri)
    (source_path : String) (lines : List String) : Except TurlError String :=
  match extract_messages parse uri.provider source_path lines with
  | Except.error e => Except.error e
  | Except.ok messages =>
    let output := "# Thread\n\n" ++ ("- URI: `" ++ uri.as_string ++ "`\n")
      ++ ("- Source: `" ++ source_path ++ "`\n\n")
    if messages.isEmpty then
      Except.ok (output ++ "_No user/assistant messages found._\n")
    else
      Except.ok
        ((messages.enum).foldl
          (fun output p =>
            output ++ ("## " ++ toString (p.fst + 1) ++ ". " ++ role_title p.snd.role
              ++ "\n\n") ++ strTrim p.snd.text ++ "\n\n")
          output)

/-- A filesystem entry seen during the `WalkDir` traversal of a root: its file
name, its full path, whether it is a regular file, and its modification time in
integer time units since the Unix epoch (`none`: the timestamp cannot be read). -/
structure FileEntry where
  name : String
  path : String
  isFile : Bool
  modified : Option Nat
deriving DecidableEq

/-- The modification time used for ranking a candidate, with an unreadable
timestamp defaulting to the Unix epoch, as in
`fs::metadata(&path).and_then(|m| m.modified()).unwrap_or(SystemTime::UNIX_EPOCH)`. -/
def mtime (e : FileEntry) : Nat := e.modified.getD 0

/-- Function `CodexProvider::find_candidates` from
src/turl-core/src/provider/codex.rs; a root is `none` when it does not exist on
disk, otherwise the list of entries its recursive traversal yields, in
traversal order. -/
def find_candidates (root : Option (List FileEntry)) (session_id : String) :
    List FileEntry :=
  let needle := session_id ++ ".jsonl"
  match root with
  | none => []
  | some entries =>
    entries.filter
      (fun e => e.isFile && (strStartsWith e.name "rollout-" && strEndsWith e.name needle))

/-- One insertion step of the stable descending sort
`scored.sort_by_key(|(_, modified)| Reverse(*modified))`: a later element is
placed after the already-placed elements whose key is at least as large. -/
def insertDesc (x : FileEntry × Nat) :
    List (FileEntry × Nat) → List (FileEntry × Nat)
  | [] => [x]
  | y :: ys => if y.snd < x.snd then x :: y :: ys else y :: insertDesc x ys

/-- Stable sort by decreasing score, modelling
`scored.sort_by_key(|(_, modified)| Reverse(*modified))`. -/
def sortDesc (l : List (FileEntry × Nat)) : List (FileEntry × Nat) :=
  l.foldl (fun acc x => insertDesc x acc) []

/-- Function `CodexProvider::choose_latest` from
src/turl-core/src/provider/codex.rs. -/
def choose_latest (paths : List FileEntry) : Option (FileEntry × Nat) :=
  if paths.isEmpty then none
  else
    let scored := paths.map (fun path => (path, mtime path))
    let sorted := sortDesc scored
    let count := sorted.length
    sorted.head?.map (fun pr => (pr.fst, count))

/-- The filesystem snapshot a `CodexProvider` resolves against: the base root
path and the traversal listings of `<root>/sessions` and
`<root>/archived_sessions` (`none`: that directory does not exist). -/
structure CodexFs where
  root : String
  sessions : Option (List FileEntry)
  archived : Option (List FileEntry)

/-- The warning pushed in the sessions branch of `CodexProvider::resolve`. -/
def warn_active (count : Nat) (session_id selected : String) : String :=
  "multiple matches found (" ++ toString count ++ ") for session_id=" ++ session_id
    ++ "; selected latest: " ++ selected

/-- The warning pushed in the archived branch of `CodexProvider::resolve`. -/
def warn_archived (count : Nat) (session_id selected : String) : String :=
  "multiple archived matches found (" ++ toString count ++ ") for session_id="
    ++ session_id ++ "; selected latest: " ++ selected

/-- Function `CodexProvider::resolve` from src/turl-core/src/provider/codex.rs. -/
def resolve (fs : CodexFs) (session_id : String) : Except TurlError ResolvedThread :=
  let sessions_path := fs.root ++ "/sessions"
  let archived_path := fs.root ++ "/archived_sessions"
  match choose_latest (find_candidates fs.sessions session_id) with
  | some (selected, count) =>
    Except.ok
      { provider := ProviderKind.Codex
        session_id := session_id
        path := selected.path
        metadata :=
          { source := "codex:sessions"
            candidate_count := count
            warnings :=
              if count > 1 then [warn_active count session_id selected.path] else [] } }
  | none =>
    match choose_latest (find_candidates fs.archived session_id) with
    | some (selected, count) =>
      Except.ok
        { provider := ProviderKind.Codex
          session_id := session_id
          path := selected.path
          metadata :=
            { source := "codex:archived_sessions"
              candidate_count := count
              warnings :=
                if count > 1 then [warn_archived count session_id selected.path]
                else [] } }
    | none =>
      Except.error (TurlError.threadNotFound ProviderKind.Codex session_id
        [sessions_path, archived_path])

/-! ### Helper lemmas: strings -/

theorem str_data_append (a b : String) : (a ++ b).data = a.data ++ b.data := by
  cases a; cases b; rfl

theorem strEndsWith_iff {s post : String} :
    strEndsWith s post = true ↔ post.data <:+ s.data := by
  simp [strEndsWith, List.isSuffixOf_iff_suffix]

/-! ### Helper lemmas: the stable descending sort of `choose_latest` -/

/-- The effect of one `insertDesc` step on the head of the list: the new element
takes the head position exactly when its key strictly exceeds the old head's. -/
def pickMax (h : Option (FileEntry × Nat)) (x : FileEntry × Nat) :
    Option (FileEntry × Nat) :=
  some (match h with
        | none => x
        | some y => if y.snd < x.snd then x else y)

theorem head_insertDesc (x : FileEntry × Nat) (l : List (FileEntry × Nat)) :
    (insertDesc x l).head? = pickMax l.head? x := by
  cases l with
  | nil => rfl
  | cons y ys =>
    by_cases h : y.snd < x.snd <;> simp [insertDesc, pickMax, h]

theorem head_foldl_insertDesc (l : List (FileEntry × Nat)) :
    ∀ acc : List (FileEntry × Nat),
      (l.foldl (fun acc x => insertDesc x acc) acc).head? = l.foldl pickMax acc.head? := by
  induction l with
  | nil => intro acc; rfl
  | cons x rest ih =>
    intro acc
    simp only [List.foldl_cons]
    rw [ih (insertDesc x acc), head_insertDesc]

/-- The running leftmost maximum: the current best is replaced only by a strictly
larger key, so ties keep the earlier element. -/
def firstMaxAux (cur : FileEntry × Nat) : List (FileEntry × Nat) → FileEntry × Nat
  | [] => cur
  | x :: xs => firstMaxAux (if cur.snd < x.snd then x else cur) xs

theorem foldl_pickMax_eq_firstMaxAux (l : List (FileEntry × Nat)) :
    ∀ cur, l.foldl pickMax (some cur) = some (firstMaxAux cur l) := by
  induction l with
  | nil => intro cur; rfl
  | cons x rest ih =>
    intro cur
    simp only [List.foldl_cons, firstMaxAux]
    rw [show pickMax (some cur) x = some (if cur.snd < x.snd then x else cur) from rfl,
      ih]

theorem firstMaxAux_mem (l : List (FileEntry × Nat)) :
    ∀ cur, firstMaxAux cur l ∈ cur :: l := by
  induction l with
  | nil => intro cur; simp [firstMaxAux]
  | cons x rest ih =>
    intro cur
    have h := ih (if cur.snd < x.snd then x else cur)
    rcases List.mem_cons.mp h with h1 | h1
    · rw [firstMaxAux, h1]
      by_cases hc : cur.snd < x.snd <;> simp [hc]
    · exact List.mem_cons.mpr (Or.inr (List.mem_cons.mpr (Or.inr (by
        rw [firstMaxAux]; exact h1))))

theorem firstMaxAux_max (l : List (FileEntry × Nat)) :
    ∀ cur, ∀ z ∈ cur :: l, z.snd ≤ (firstMaxAux cur l).snd := by
  induction l with
  | nil => intro cur z hz; simp at hz; rw [hz, firstMaxAux]
  | cons x rest ih =>
    intro cur z hz
    rw [firstMaxAux]
    rcases List.mem_cons.mp hz with rfl | hz1
    · have h1 : z.snd ≤ (if z.snd < x.snd then x else z).snd := by
        by_cases hc : z.snd < x.snd <;> simp [hc]; omega
      exact le_trans h1 (ih _ _ (List.mem_cons_self _ _))
    · rcases List.mem_cons.mp hz1 with rfl | hz2
      · have h1 : z.snd ≤ (if cur.snd < z.snd then z else cur).snd := by
          by_cases hc : cur.snd < z.snd <;> simp [hc]; omega
        exact le_trans h1 (ih _ _ (List.mem_cons_self _ _))
      · exact ih _ _ (List.mem_cons.mpr (Or.inr hz2))

theorem firstMaxAux_first (l : List (FileEntry × Nat)) :
    ∀ cur, ∃ pre post, cur :: l = pre ++ firstMaxAux cur l :: post ∧
      ∀ q ∈ pre, q.snd < (firstMaxAux cur l).snd := by
  induction l with
  | nil =>
    intro cur
    exact ⟨[], [], by rw [firstMaxAux]; rfl, by intro q hq; simp at hq⟩
  | cons x rest ih =>
    intro cur
    rw [firstMaxAux]
    by_cases hc : cur.snd < x.snd
    · rw [if_pos hc]
      obtain ⟨pre, post, heq, hlt⟩ := ih x
      refine ⟨cur :: pre, post, by rw [List.cons_append, ← heq], ?_⟩
      intro q hq
      rcases List.mem_cons.mp hq with rfl | hq1
      · have hx : x.snd ≤ (firstMaxAux x rest).snd :=
          firstMaxAux_max rest x x (List.mem_cons_self _ _)
        omega
      · exact hlt q hq1
    · rw [if_neg hc]
      obtain ⟨pre, post, heq, hlt⟩ := ih cur
      cases pre with
      | nil =>
        simp only [List.nil_append] at heq
        rw [List.cons.injEq] at heq
        refine ⟨[], x :: rest, ?_, by intro q hq; simp at hq⟩
        rw [List.nil_append, ← heq.1]
      | cons p pre2 =>
        rw [List.cons_append, List.cons.injEq] at heq
        obtain ⟨heq1, heq2⟩ := heq
        subst heq1
        refine ⟨cur :: x :: pre2, post, ?_, ?_⟩
        · rw [List.cons_append, List.cons_append, ← heq2]
        · intro q hq
          have hcurlt : cur.snd < (firstMaxAux cur rest).snd :=
            hlt cur (List.mem_cons_self _ _)
          rcases List.mem_cons.mp hq with rfl | hq1
          · exact hcurlt
          · rcases List.mem_cons.mp hq1 with rfl | hq2
            · omega
            · exact hlt q (List.mem_cons.mpr (Or.inr hq2))

theorem length_insertDesc (x : FileEntry × Nat) (l : List (FileEntry × Nat)) :
    (insertDesc x l).length = l.length + 1 := by
  induction l with
  | nil => rfl
  | cons y ys ih =>
    by_cases h : y.snd < x.snd <;> simp [insertDesc, h, ih]

theorem length_sortDesc (l : List (FileEntry × Nat)) : (sortDesc l).length = l.length := by
  suffices h : ∀ acc : List (FileEntry × Nat),
      (l.foldl (fun acc x => insertDesc x acc) acc).length = acc.length + l.length by
    simpa using h []
  induction l with
  | nil => intro acc; simp
  | cons x rest ih =>
    intro acc
    simp only [List.foldl_cons, List.length_cons]
    rw [ih (insertDesc x acc), length_insertDesc]
    omega

theorem find_first_of_map_decomp :
    ∀ (paths : List FileEntry) (pre post : List (FileEntry × Nat)) (m : FileEntry × Nat),
      paths.map (fun q => (q, mtime q)) = pre ++ m :: post →
      (∀ x ∈ pre, x.snd < m.snd) →
      List.find? (fun q => decide (m.snd ≤ mtime q)) paths = some m.fst := by
  intro paths
  induction paths with
  | nil =>
    intro pre post m heq _
    exact absurd heq (by simp)
  | cons q rest ih =>
    intro pre post m heq hlt
    cases pre with
    | nil =>
      simp only [List.map_cons, List.nil_append, List.cons.injEq] at heq
      obtain ⟨h1, _⟩ := heq
      rw [List.find?_cons_of_pos _ (by rw [← h1]; simp), ← h1]
    | cons x pre2 =>
      simp only [List.map_cons, List.cons_append, List.cons.injEq] at heq
      obtain ⟨h1, h2⟩ := heq
      have hx : x.snd < m.snd := hlt x (List.mem_cons_self _ _)
      rw [← h1] at hx
      rw [List.find?_cons_of_neg _ (by simp only [decide_eq_true_eq]; omega)]
      exact ih pre2 post m h2 (fun z hz => hlt z (List.mem_cons.mpr (Or.inr hz)))

/-- The full characterization of `choose_latest` on a non-empty candidate list:
it returns a candidate together with the total candidate count; the returned
candidate has the maximum ranking time, and it is the first candidate in
traversal order achieving that maximum. -/
theorem choose_latest_cons (p : FileEntry) (ps : List FileEntry) :
    ∃ sel, choose_latest (p :: ps) = some (sel, ps.length + 1) ∧ sel ∈ p :: ps ∧
      (∀ q ∈ p :: ps, mtime q ≤ mtime sel) ∧
      List.find? (fun q => decide (mtime sel ≤ mtime q)) (p :: ps) = some sel := by
  have hhead : (sortDesc ((p :: ps).map (fun q => (q, mtime q)))).head? =
      some (firstMaxAux (p, mtime p) (ps.map (fun q => (q, mtime q)))) := by
    rw [sortDesc, head_foldl_insertDesc, List.map_cons, List.foldl_cons]
    exact foldl_pickMax_eq_firstMaxAux _ _
  have hmem : firstMaxAux (p, mtime p) (ps.map (fun q => (q, mtime q))) ∈
      ((p :: ps).map (fun q => (q, mtime q))) := by
    rw [List.map_cons]
    exact firstMaxAux_mem _ _
  obtain ⟨sel, hsel_mem, hsel_eq⟩ := List.mem_map.mp hmem
  refine ⟨sel, ?_, hsel_mem, ?_, ?_⟩
  · simp only [choose_latest, List.isEmpty_cons, Bool.false_eq_true, if_false]
    rw [hhead, ← hsel_eq]
    simp [length_sortDesc]
  · intro q hq
    have hq2 : (q, mtime q) ∈ ((p :: ps).map (fun z => (z, mtime z))) :=
      List.mem_map.mpr ⟨q, hq, rfl⟩
    rw [List.map_cons] at hq2
    have := firstMaxAux_max (ps.map (fun z => (z, mtime z))) (p, mtime p) _ hq2
    rw [← hsel_eq] at this
    exact this
  · obtain ⟨pre, post, heq, hlt⟩ :=
      firstMaxAux_first (ps.map (fun q => (q, mtime q))) (p, mtime p)
    rw [← hsel_eq] at heq hlt
    have := find_first_of_map_decomp (p :: ps) pre post (sel, mtime sel)
      (by rw [List.map_cons, heq]) hlt
    exact this

theorem choose_latest_eq_none_iff (paths : List FileEntry) :
    choose_latest paths = none ↔ paths = [] := by
  cases paths with
  | nil => simp [choose_latest]
  | cons p ps =>
    obtain ⟨sel, hsel, _⟩ := choose_latest_cons p ps
    simp [hsel]

/-! ### Helper lemmas: unfolding `resolve` by cases -/

theorem resolve_sessions_case (fs : CodexFs) (session_id : String) (sel : FileEntry)
    (count : Nat)
    (h : choose_latest (find_candidates fs.sessions session_id) = some (sel, count)) :
    resolve fs session_id = Except.ok
      { provider := ProviderKind.Codex
        session_id := session_id
        path := sel.path
        metadata :=
          { source := "codex:sessions"
            candidate_count := count
            warnings :=
              if count > 1 then [warn_active count session_id sel.path] else [] } } := by
  simp only [resolve, h]

theorem resolve_archived_case (fs : CodexFs) (session_id : String) (sel : FileEntry)
    (count : Nat)
    (h1 : choose_latest (find_candidates fs.sessions session_id) = none)
    (h2 : choose_latest (find_candidates fs.archived session_id) = some (sel, count)) :
    resolve fs session_id = Except.ok
      { provider := ProviderKind.Codex
        session_id := session_id
        path := sel.path
        metadata :=
          { source := "codex:archived_sessions"
            candidate_count := count
            warnings :=
              if count > 1 then [warn_archived count session_id sel.path] else [] } } := by
  simp only [resolve, h1, h2]

theorem resolve_none_case (fs : CodexFs) (session_id : String)
    (h1 : choose_latest (find_candidates fs.sessions session_id) = none)
    (h2 : choose_latest (find_candidates fs.archived session_id) = none) :
    resolve fs session_id = Except.error
      (TurlError.threadNotFound ProviderKind.Codex session_id
        [fs.root ++ "/sessions", fs.root ++ "/archived_sessions"]) := by
  simp only [resolve, h1, h2]

/-- C1: if the `sessions` root yields at least one candidate, `resolve` succeeds
with a file taken from the `sessions` candidates and metadata source
`"codex:sessions"`, and its result does not depend on the `archived_sessions`
root at all (so an archived file is never selected, however new its timestamp,
and the archived root is consulted only when `sessions` yields no candidate). -/
theorem resolve_root_priority (fs : CodexFs) (session_id : String)
    (h : find_candidates fs.sessions session_id ≠ []) :
    ∃ rt, resolve fs session_id = Except.ok rt ∧
      rt.metadata.source = "codex:sessions" ∧
      rt.path ∈ (find_candidates fs.sessions session_id).map FileEntry.path ∧
      ∀ archived2, resolve { fs with archived := archived2 } session_id =
        resolve fs session_id := by
  obtain ⟨p, ps, hcons⟩ := List.exists_cons_of_ne_nil h
  obtain ⟨sel, hsel, hmem, _, _⟩ := choose_latest_cons p ps
  rw [← hcons] at hsel hmem
  refine ⟨_, resolve_sessions_case fs session_id sel (ps.length + 1) hsel, rfl, ?_, ?_⟩
  · exact List.mem_map.mpr ⟨sel, hmem, rfl⟩
  · intro archived2
    have hsel2 : choose_latest
        (find_candidates ({ fs with archived := archived2 } : CodexFs).sessions
          session_id) = some (sel, ps.length + 1) := hsel
    rw [resolve_sessions_case fs session_id sel (ps.length + 1) hsel,
      resolve_sessions_case { fs with archived := archived2 } session_id sel
        (ps.length + 1) hsel2]

theorem resolve_root_priority_witness :
    resolve
      { root := "r"
        sessions := some [⟨"rollout-x-abc.jsonl", "r/sessions/rollout-x-abc.jsonl",
          true, some 1⟩]
        archived := none } "abc" =
    resolve
      { root := "r"
        sessions := some [⟨"rollout-x-abc.jsonl", "r/sessions/rollout-x-abc.jsonl",
          true, some 1⟩]
        archived := some [⟨"rollout-y-abc.jsonl",
          "r/archived_sessions/rollout-y-abc.jsonl", true, some 99⟩] } "abc" := by
  obtain ⟨rt, h1, h2, h3, h4⟩ :=
    resolve_root_priority
      { root := "r"
        sessions := some [⟨"rollout-x-abc.jsonl", "r/sessions/rollout-x-abc.jsonl",
          true, some 1⟩]
        archived := some [⟨"rollout-y-abc.jsonl",
          "r/archived_sessions/rollout-y-abc.jsonl", true, some 99⟩] } "abc"
      (by decide)
  exact h4 none

/-- C5: `resolve` fails exactly when neither root yields any candidate; the
error is `ThreadNotFound` and enumerates both consulted roots in search order;
and a root that does not exist on disk yields zero candidates. -/
theorem resolve_not_found_iff (fs : CodexFs) (session_id : String) :
    ((∃ e, resolve fs session_id = Except.error e) ↔
      (find_candidates fs.sessions session_id = [] ∧
        find_candidates fs.archived session_id = [])) ∧
    (∀ e, resolve fs session_id = Except.error e →
      e = TurlError.threadNotFound ProviderKind.Codex session_id
        [fs.root ++ "/sessions", fs.root ++ "/archived_sessions"]) ∧
    (∀ sid, find_candidates none sid = []) := by
  have herr : ∀ e, resolve fs session_id = Except.error e →
      (find_candidates fs.sessions session_id = [] ∧
        find_candidates fs.archived session_id = [] ∧
        e = TurlError.threadNotFound ProviderKind.Codex session_id
          [fs.root ++ "/sessions", fs.root ++ "/archived_sessions"]) := by
    intro e he
    rcases hs : choose_latest (find_candidates fs.sessions session_id) with _ | ⟨sel, cnt⟩
    · rcases ha : choose_latest (find_candidates fs.archived session_id) with _ | ⟨sel2, cnt2⟩
      · rw [resolve_none_case fs session_id hs ha] at he
        refine ⟨(choose_latest_eq_none_iff _).mp hs,
          (choose_latest_eq_none_iff _).mp ha, ?_⟩
        injection he with he2
        exact he2.symm
      · rw [resolve_archived_case fs session_id sel2 cnt2 hs ha] at he
        exact Except.noConfusion he
    · rw [resolve_sessions_case fs session_id sel cnt hs] at he
      exact Except.noConfusion he
  refine ⟨⟨?_, ?_⟩, fun e he => (herr e he).2.2, fun sid => rfl⟩
  · intro hex
    obtain ⟨e, he⟩ := hex
    exact ⟨(herr e he).1, (herr e he).2.1⟩
  · intro hboth
    exact ⟨_, resolve_none_case fs session_id
      ((choose_latest_eq_none_iff _).mpr hboth.1)
      ((choose_latest_eq_none_iff _).mpr hboth.2)⟩

theorem resolve_not_found_iff_witness :
    resolve { root := "r", sessions := none, archived := none } "abc" =
      Except.error (TurlError.threadNotFound ProviderKind.Codex "abc"
        ["r/sessions", "r/archived_sessions"]) := by
  obtain ⟨e, he⟩ :=
    (resolve_not_found_iff { root := "r", sessions := none, archived := none }
      "abc").1.mpr ⟨rfl, rfl⟩
  rw [he, (resolve_not_found_iff { root := "r", sessions := none, archived := none }
      "abc").2.1 e he]
  rfl

/-- C6: whenever `resolve` succeeds, the metadata's `candidate_count` equals the
number of candidates of the matched root, and the warnings are non-empty exactly
when that count exceeds one; and having at least one candidate in either root
guarantees success (ambiguity is never an error). -/
theorem resolve_meta_counts (fs : CodexFs) (session_id : String) :
    (∀ rt, resolve fs session_id = Except.ok rt →
      rt.metadata.candidate_count =
        (if find_candidates fs.sessions session_id = [] then
          (find_candidates fs.archived session_id).length
        else (find_candidates fs.sessions session_id).length) ∧
      (rt.metadata.warnings ≠ [] ↔ 1 < rt.metadata.candidate_count)) ∧
    ((find_candidates fs.sessions session_id ≠ [] ∨
        find_candidates fs.archived session_id ≠ []) →
      ∃ rt, resolve fs session_id = Except.ok rt) := by
  constructor
  · intro rt hrt
    rcases hscand : find_candidates fs.sessions session_id with _ | ⟨p, ps⟩
    · have hs : choose_latest (find_candidates fs.sessions session_id) = none := by
        rw [hscand]; rfl
      rcases hacand : find_candidates fs.archived session_id with _ | ⟨q, qs⟩
      · have ha : choose_latest (find_candidates fs.archived session_id) = none := by
          rw [hacand]; rfl
        rw [resolve_none_case fs session_id hs ha] at hrt
        exact Except.noConfusion hrt
      · obtain ⟨sel, hsel, _, _, _⟩ := choose_latest_cons q qs
        rw [← hacand] at hsel
        rw [resolve_archived_case fs session_id sel (qs.length + 1) hs hsel] at hrt
        injection hrt with hrt
        subst hrt
        refine ⟨by simp, ?_⟩
        by_cases hc : qs.length + 1 > 1 <;> simp [hc]
    · obtain ⟨sel, hsel, _, _, _⟩ := choose_latest_cons p ps
      rw [← hscand] at hsel
      rw [resolve_sessions_case fs session_id sel (ps.length + 1) hsel] at hrt
      injection hrt with hrt
      subst hrt
      refine ⟨by simp, ?_⟩
      by_cases hc : ps.length + 1 > 1 <;> simp [hc]
  · intro hor
    rcases hs : choose_latest (find_candidates fs.sessions session_id) with _ | ⟨sel, cnt⟩
    · rcases ha : choose_latest (find_candidates fs.archived session_id) with _ | ⟨sel2, cnt2⟩
      · have h1 := (choose_latest_eq_none_iff _).mp hs
        have h2 := (choose_latest_eq_none_iff _).mp ha
        rcases hor with h3 | h3
        · exact absurd h1 h3
        · exact absurd h2 h3
      · exact ⟨_, resolve_archived_case fs session_id sel2 cnt2 hs ha⟩
    · exact ⟨_, resolve_sessions_case fs session_id sel cnt hs⟩

theorem resolve_meta_counts_witness :
    resolve
      { root := "r"
        sessions := some [⟨"rollout-x-abc.jsonl", "p1", true, some 1⟩,
          ⟨"rollout-y-abc.jsonl", "p2", true, some 2⟩]
        archived := none } "abc" =
      Except.ok
        { provider := ProviderKind.Codex
          session_id := "abc"
          path := "p2"
          metadata :=
            { source := "codex:sessions"
              candidate_count := 2
              warnings := [warn_active 2 "abc" "p2"] } } ∧
    ({ source := "codex:sessions", candidate_count := 2,
        warnings := [warn_active 2 "abc" "p2"] } : ResolutionMeta).candidate_count = 2 := by
  have hev :
      resolve
        { root := "r"
          sessions := some [⟨"rollout-x-abc.jsonl", "p1", true, some 1⟩,
            ⟨"rollout-y-abc.jsonl", "p2", true, some 2⟩]
          archived := none } "abc" =
        Except.ok
          { provider := ProviderKind.Codex
            session_id := "abc"
            path := "p2"
            metadata :=
              { source := "codex:sessions"
                candidate_count := 2
                warnings := [warn_active 2 "abc" "p2"] } } := rfl
  obtain ⟨h1, _⟩ :=
    (resolve_meta_counts
      { root := "r"
        sessions := some [⟨"rollout-x-abc.jsonl", "p1", true, some 1⟩,
          ⟨"rollout-y-abc.jsonl", "p2", true, some 2⟩]
        archived := none } "abc").1 _ hev
  refine ⟨hev, ?_⟩
  rw [h1]
  decide

/-- C2 (amended): on a non-empty candidate list, `choose_latest` returns a
candidate with the maximum ranking time (an unreadable timestamp ranks as the
Unix epoch) together with the total candidate count; the selection is the first
candidate in traversal order achieving that maximum (hence deterministic); and
if the selected candidate's timestamp is unreadable, every candidate ranks at
the epoch — so a candidate whose readable timestamp is later than the epoch
always outranks an unreadable one, while a readable timestamp equal to the
epoch ties with an unreadable one. -/
theorem choose_latest_recency (paths : List FileEntry) (h : paths ≠ []) :
    ∃ sel, choose_latest paths = some (sel, paths.length) ∧ sel ∈ paths ∧
      (∀ p ∈ paths, mtime p ≤ mtime sel) ∧
      List.find? (fun q => decide (mtime sel ≤ mtime q)) paths = some sel ∧
      (sel.modified = none → ∀ p ∈ paths, mtime p = 0) := by
  obtain ⟨p, ps, rfl⟩ := List.exists_cons_of_ne_nil h
  obtain ⟨sel, h1, h2, h3, h4⟩ := choose_latest_cons p ps
  refine ⟨sel, by simpa using h1, h2, h3, h4, ?_⟩
  intro hnone q hq
  have hle := h3 q hq
  have hz : mtime sel = 0 := by rw [mtime, hnone]; rfl
  omega

theorem choose_latest_recency_witness :
    choose_latest [⟨"n1", "p1", true, some 5⟩, ⟨"n2", "p2", true, some 9⟩,
        ⟨"n3", "p3", true, some 7⟩] =
      some (⟨"n2", "p2", true, some 9⟩, 3) ∧
    mtime ⟨"n1", "p1", true, some 5⟩ ≤ mtime ⟨"n2", "p2", true, some 9⟩ := by
  obtain ⟨sel, h1, _, h3, _, _⟩ :=
    choose_latest_recency
      [⟨"n1", "p1", true, some 5⟩, ⟨"n2", "p2", true, some 9⟩,
        ⟨"n3", "p3", true, some 7⟩] (by decide)
  have h1b : choose_latest [⟨"n1", "p1", true, some 5⟩, ⟨"n2", "p2", true, some 9⟩,
      ⟨"n3", "p3", true, some 7⟩] = some (sel, 3) := h1
  have h2b : choose_latest [⟨"n1", "p1", true, some 5⟩, ⟨"n2", "p2", true, some 9⟩,
      ⟨"n3", "p3", true, some 7⟩] = some (⟨"n2", "p2", true, some 9⟩, 3) := rfl
  rw [h1b] at h2b
  injection h2b with h2b
  have hsel : sel = ⟨"n2", "p2", true, some 9⟩ := ((Prod.mk.injEq _ _ _ _).mp h2b).1
  subst hsel
  exact ⟨h1b, h3 ⟨"n1", "p1", true, some 5⟩ (by simp)⟩

/-- C2 counterexample: a candidate with a readable timestamp does not always
outrank one with an unreadable timestamp — a readable timestamp equal to the
Unix epoch ties with an unreadable one, and here the unreadable candidate,
being first in traversal order, is selected over the readable one. -/
theorem choose_latest_epoch_tie :
    choose_latest [⟨"rollout-b-s.jsonl", "b", true, none⟩,
        ⟨"rollout-a-s.jsonl", "a", true, some 0⟩] =
      some (⟨"rollout-b-s.jsonl", "b", true, none⟩, 2) ∧
    (FileEntry.mk "rollout-b-s.jsonl" "b" true none).modified = none ∧
    (FileEntry.mk "rollout-a-s.jsonl" "a" true (some 0)).modified = some 0 :=
  ⟨rfl, rfl, rfl⟩

/-- C10: a file is a candidate for a session id exactly when it is a regular
file whose name starts with the fixed prefix `rollout-` and ends with the
session id immediately followed by `.jsonl`; consequently, whenever `s1` is a
suffix of `s2`, every candidate for `s2` is also a candidate for `s1` (no
separator is required before the session id), so distinct session ids need not
have disjoint candidate sets. -/
theorem find_candidates_pattern (s1 s2 : String) (hsuf : s1.data <:+ s2.data) :
    (∀ (s : String) (entries : List FileEntry) (e : FileEntry),
      e ∈ find_candidates (some entries) s ↔
        e ∈ entries ∧ e.isFile = true ∧ strStartsWith e.name "rollout-" = true ∧
          strEndsWith e.name (s ++ ".jsonl") = true) ∧
    (∀ (root : Option (List FileEntry)) (e : FileEntry),
      e ∈ find_candidates root s2 → e ∈ find_candidates root s1) := by
  have hchar : ∀ (s : String) (entries : List FileEntry) (e : FileEntry),
      e ∈ find_candidates (some entries) s ↔
        e ∈ entries ∧ e.isFile = true ∧ strStartsWith e.name "rollout-" = true ∧
          strEndsWith e.name (s ++ ".jsonl") = true := by
    intro s entries e
    simp [find_candidates, List.mem_filter, and_assoc]
  refine ⟨hchar, ?_⟩
  intro root e he
  cases root with
  | none => exact absurd he (by simp [find_candidates])
  | some entries =>
    obtain ⟨hmem, hfile, hpre, hsuf2⟩ := (hchar s2 entries e).mp he
    refine (hchar s1 entries e).mpr ⟨hmem, hfile, hpre, ?_⟩
    rw [strEndsWith_iff] at hsuf2 ⊢
    have hstep : (s1 ++ ".jsonl").data <:+ (s2 ++ ".jsonl").data := by
      obtain ⟨u, hu⟩ := hsuf
      exact ⟨u, by rw [str_data_append, str_data_append, ← hu, List.append_assoc]⟩
    exact hstep.trans hsuf2

theorem find_candidates_pattern_witness :
    (⟨"rollout-x-abc123.jsonl", "p", true, some 1⟩ : FileEntry) ∈
      find_candidates (some [⟨"rollout-x-abc123.jsonl", "p", true, some 1⟩]) "c123" :=
  (find_candidates_pattern "c123" "abc123" (by decide)).2
    (some [⟨"rollout-x-abc123.jsonl", "p", true, some 1⟩])
    ⟨"rollout-x-abc123.jsonl", "p", true, some 1⟩ (by decide)

/-! ### Helper lemmas: message extraction -/

theorem mk_message_eq_some {role : MessageRole} {text : String} {m : ThreadMessage}
    (h : mk_message role text = some m) :
    m.role = role ∧ m.text = text ∧ strIsEmpty (strTrim m.text) = false := by
  unfold mk_message at h
  split at h
  · exact Option.noConfusion h
  · rename_i hb
    injection h with h
    subst h
    exact ⟨rfl, rfl, by simpa using hb⟩

theorem extract_codex_message_shape (v : Json) :
    extract_codex_message v = none ∨
      ∃ role text, extract_codex_message v = mk_message role text := by
  unfold extract_codex_message
  repeat' split
  all_goals first
    | exact Or.inl rfl
    | exact Or.inr ⟨_, _, rfl⟩

theorem extract_claude_message_shape (v : Json) :
    extract_claude_message v = none ∨
      ∃ role text, extract_claude_message v = mk_message role text := by
  unfold extract_claude_message
  repeat' split
  all_goals first
    | exact Or.inl rfl
    | exact Or.inr ⟨_, _, rfl⟩

theorem extract_message_nonblank (provider : ProviderKind) (v : Json)
    (m : ThreadMessage)
    (h : (match provider with
          | ProviderKind.Codex => extract_codex_message v
          | ProviderKind.Claude => extract_claude_message v) = some m) :
    strIsEmpty (strTrim m.text) = false := by
  cases provider
  · rcases extract_codex_message_shape v with h1 | ⟨role, text, h1⟩
    · rw [h1] at h; exact Option.noConfusion h
    · rw [h1] at h; exact (mk_message_eq_some h).2.2
  · rcases extract_claude_message_shape v with h1 | ⟨role, text, h1⟩
    · rw [h1] at h; exact Option.noConfusion h
    · rw [h1] at h; exact (mk_message_eq_some h).2.2

theorem extract_lines_invalid (parse : String → Option Json)
    (provider : ProviderKind) (path : String) :
    ∀ (lines : List String) (n : Nat),
      (∃ l ∈ lines, strIsEmpty (strTrim l) = false ∧ parse (strTrim l) = none) →
      ∃ k l, extract_lines parse provider path n lines =
          Except.error (TurlError.invalidJsonLine path k) ∧ n ≤ k ∧
        lines.get? (k - n) = some l ∧ strIsEmpty (strTrim l) = false ∧
        parse (strTrim l) = none := by
  intro lines
  induction lines with
  | nil =>
    intro n h
    exact absurd h (by simp)
  | cons line rest ih =>
    intro n h
    by_cases hb : strIsEmpty (strTrim line) = true
    · have hrest : ∃ l ∈ rest, strIsEmpty (strTrim l) = false ∧
          parse (strTrim l) = none := by
        obtain ⟨l, hl, h1, h2⟩ := h
        rcases List.mem_cons.mp hl with rfl | hl2
        · rw [h1] at hb; exact absurd hb (by simp)
        · exact ⟨l, hl2, h1, h2⟩
      obtain ⟨k, l, hres, hk, hget, h1, h2⟩ := ih (n + 1) hrest
      refine ⟨k, l, ?_, by omega, ?_, h1, h2⟩
      · simp only [extract_lines]
        rw [if_pos hb]
        exact hres
      · have hkn : k - n = (k - (n + 1)) + 1 := by omega
        rw [hkn]
        exact hget
    · rcases hp : parse (strTrim line) with _ | value
      · refine ⟨n, line, ?_, le_refl n, ?_, by simpa using hb, hp⟩
        · simp only [extract_lines]
          rw [if_neg hb, hp]
        · simp
      · have hrest : ∃ l ∈ rest, strIsEmpty (strTrim l) = false ∧
            parse (strTrim l) = none := by
          obtain ⟨l, hl, h1, h2⟩ := h
          rcases List.mem_cons.mp hl with rfl | hl2
          · rw [hp] at h2; exact Option.noConfusion h2
          · exact ⟨l, hl2, h1, h2⟩
        obtain ⟨k, l, hres, hk, hget, h1, h2⟩ := ih (n + 1) hrest
        refine ⟨k, l, ?_, by omega, ?_, h1, h2⟩
        · simp only [extract_lines]
          rw [if_neg hb, hp, hres]
        · have hkn : k - n = (k - (n + 1)) + 1 := by omega
          rw [hkn]
          exact hget

theorem chunks_foldl (items : List Json) :
    ∀ acc : List String,
      items.foldl (fun chunks item =>
        match item_chunk item with
        | some chunk => chunks ++ [chunk]
        | none => chunks) acc = acc ++ items.filterMap item_chunk := by
  induction items with
  | nil => intro acc; simp
  | cons item rest ih =>
    intro acc
    rcases h : item_chunk item with _ | chunk
    · simp only [List.foldl_cons, List.filterMap_cons, h]
      rw [ih acc]
    · simp only [List.foldl_cons, List.filterMap_cons, h]
      rw [ih (acc ++ [chunk])]
      simp

theorem extract_text_arr (items : List Json) :
    extract_text (some (Json.arr items)) =
      joinSep "\n\n" (items.filterMap item_chunk) := by
  simp only [extract_text, Json.asStr, Json.asArr]
  rw [chunks_foldl items []]
  simp

theorem item_chunk_tool_none (item : Json) (h : tool_skip item = true) :
    item_chunk item = none := by
  unfold item_chunk
  rw [if_pos h]

/-- C3: if some line of the raw text is non-blank after trimming and is not
valid JSON, then `extract_messages` fails with `InvalidJsonLine` carrying the
path and the 1-based number of such a line, returning no messages at all; and a
blank line (empty after trimming) is skipped without error and produces no
message. -/
theorem extract_messages_invalid_line (parse : String → Option Json)
    (provider : ProviderKind) (path : String) (lines : List String)
    (h : ∃ l ∈ lines, strIsEmpty (strTrim l) = false ∧ parse (strTrim l) = none) :
    (∃ k l, extract_messages parse provider path lines =
        Except.error (TurlError.invalidJsonLine path k) ∧ 1 ≤ k ∧
      lines.get? (k - 1) = some l ∧ strIsEmpty (strTrim l) = false ∧
      parse (strTrim l) = none) ∧
    (∀ (blank : String) (k : Nat) (post : List String),
      strIsEmpty (strTrim blank) = true →
      extract_lines parse provider path k (blank :: post) =
        extract_lines parse provider path (k + 1) post) := by
  constructor
  · exact extract_lines_invalid parse provider path lines 1 h
  · intro blank k post hb
    simp only [extract_lines]
    rw [if_pos hb]

theorem extract_messages_invalid_line_witness :
    extract_messages (fun _ => none) ProviderKind.Codex "p" ["x"] =
      Except.error (TurlError.invalidJsonLine "p" 1) := by
  obtain ⟨⟨k, l, hres, hk, hget, _, _⟩, _⟩ :=
    extract_messages_invalid_line (fun _ => none) ProviderKind.Codex "p" ["x"]
      ⟨"x", by simp, by decide, rfl⟩
  have hk0 : k - 1 = 0 := by
    cases hcase : k - 1 with
    | zero => rfl
    | succ j => rw [hcase] at hget; exact Option.noConfusion hget
  have hk1 : k = 1 := by omega
  rw [hk1] at hres
  exact hres

/-- C7 counterexample: `extract_messages` can return a message whose text keeps
its leading and trailing whitespace — when the record's content field is a
plain string it is used verbatim — so the claim that no emitted message carries
leading or trailing whitespace is false (`strTrim " hi "` is `"hi"`, not
`" hi "`, yet the emitted text is `" hi "`). -/
theorem extract_messages_untrimmed_text :
    extract_messages
      (fun s => if s = "line1" then
        some (Json.obj [("type", Json.str "response_item"),
          ("payload", Json.obj [("type", Json.str "message"),
            ("role", Json.str "user"), ("content", Json.str " hi ")])])
        else none)
      ProviderKind.Codex "p" ["line1"] =
      Except.ok [{ role := MessageRole.User, text := " hi " }] ∧
    strTrim " hi " = "hi" :=
  ⟨rfl, rfl⟩

/-- C7 (amended): every `ThreadMessage` returned by `extract_messages` has text
that is non-empty after trimming — a message whose assembled text is empty
after trimming is never emitted; the stored text itself, however, may keep
surrounding whitespace (it is trimmed again at render time). -/
theorem extract_messages_text_nonblank (parse : String → Option Json)
    (provider : ProviderKind) (path : String) (lines : List String)
    (msgs : List ThreadMessage)
    (h : extract_messages parse provider path lines = Except.ok msgs) :
    ∀ m ∈ msgs, strIsEmpty (strTrim m.text) = false := by
  suffices haux : ∀ (lines : List String) (n : Nat) (msgs : List ThreadMessage),
      extract_lines parse provider path n lines = Except.ok msgs →
      ∀ m ∈ msgs, strIsEmpty (strTrim m.text) = false from haux lines 1 msgs h
  intro lines
  induction lines with
  | nil =>
    intro n msgs h m hm
    rw [extract_lines] at h
    injection h with h
    subst h
    exact absurd hm (by simp)
  | cons line rest ih =>
    intro n msgs h m hm
    simp only [extract_lines] at h
    split at h
    · exact ih (n + 1) msgs h m hm
    · split at h
      · exact Except.noConfusion h
      · rename_i value hvalue
        rcases hrec : extract_lines parse provider path (n + 1) rest with e | msgs2
        · rw [hrec] at h
          exact Except.noConfusion h
        · rw [hrec] at h
          injection h with h
          rcases hextr : (match provider with
            | ProviderKind.Codex => extract_codex_message value
            | ProviderKind.Claude => extract_claude_message value) with _ | msg
          · rw [hextr] at h
            subst h
            exact ih (n + 1) msgs2 hrec m hm
          · rw [hextr] at h
            subst h
            have hm2 : m ∈ msg :: msgs2 := hm
            rcases List.mem_cons.mp hm2 with rfl | hm3
            · exact extract_message_nonblank provider value m hextr
            · exact ih (n + 1) msgs2 hrec m hm3

theorem extract_messages_text_nonblank_witness :
    strIsEmpty (strTrim (ThreadMessage.mk MessageRole.User " hi ").text) = false :=
  extract_messages_text_nonblank
    (fun s => if s = "line1" then
      some (Json.obj [("type", Json.str "response_item"),
        ("payload", Json.obj [("type", Json.str "message"),
          ("role", Json.str "user"), ("content", Json.str " hi ")])])
      else none)
    ProviderKind.Codex "p" ["line1"] [⟨MessageRole.User, " hi "⟩] rfl
    ⟨MessageRole.User, " hi "⟩ (by simp)

theorem extract_codex_payload_tool (v : Json) (t : String)
    (hp : (v.get "payload").bind
      (fun payload => (payload.get "type").bind Json.asStr) = some t)
    (ht : t ∈ TOOL_TYPES) : extract_codex_message v = none := by
  have htne : t ≠ "message" ∧ (t == "agent_message") = false := by
    simp only [TOOL_TYPES, List.mem_cons, List.not_mem_nil, or_false] at ht
    rcases ht with rfl | rfl | rfl | rfl | rfl | rfl <;> exact ⟨by decide, by decide⟩
  unfold extract_codex_message
  rcases hv : (v.get "type").bind Json.asStr with _ | rt
  · rfl
  · by_cases hrt : rt = "response_item"
    · obtain ⟨payload, hpl, hpt⟩ := Option.bind_eq_some.mp hp
      simp [hrt, hpl, hpt, htne.1]
    · simp [hrt, hp, htne.2]

theorem extract_record_tool (v : Json) (t : String)
    (hv : (v.get "type").bind Json.asStr = some t) (ht : t ∈ TOOL_TYPES) :
    extract_codex_message v = none ∧ extract_claude_message v = none := by
  have hne : t ≠ "response_item" ∧ t ≠ "event_msg" ∧ t ≠ "user" ∧ t ≠ "assistant" := by
    simp only [TOOL_TYPES, List.mem_cons, List.not_mem_nil, or_false] at ht
    rcases ht with rfl | rfl | rfl | rfl | rfl | rfl <;>
      exact ⟨by decide, by decide, by decide, by decide⟩
  constructor
  · unfold extract_codex_message
    rw [hv]
    simp [hne.1, hne.2.1]
  · unfold extract_claude_message
    rw [hv]
    simp [hne.2.2.1, hne.2.2.2]

/-- C4: tool-noise is never rendered — a codex `response_item` whose payload
type is in `TOOL_TYPES` yields no message; a record whose own type is in
`TOOL_TYPES` yields no message under either provider; and deleting a content
item whose declared type is in `TOOL_TYPES` from a content array does not
change the extracted text at all. -/
theorem tool_noise_filtered :
    (∀ (v : Json) (t : String),
      (v.get "payload").bind
        (fun payload => (payload.get "type").bind Json.asStr) = some t →
      t ∈ TOOL_TYPES → extract_codex_message v = none) ∧
    (∀ (v : Json) (t : String),
      (v.get "type").bind Json.asStr = some t → t ∈ TOOL_TYPES →
      extract_codex_message v = none ∧ extract_claude_message v = none) ∧
    (∀ (item : Json) (pre post : List Json), tool_skip item = true →
      extract_text (some (Json.arr (pre ++ item :: post))) =
        extract_text (some (Json.arr (pre ++ post)))) := by
  refine ⟨extract_codex_payload_tool, extract_record_tool, ?_⟩
  intro item pre post h
  rw [extract_text_arr, extract_text_arr]
  simp [List.filterMap_append, List.filterMap_cons, item_chunk_tool_none item h]

theorem tool_noise_filtered_witness :
    extract_codex_message (Json.obj [("type", Json.str "response_item"),
      ("payload", Json.obj [("type", Json.str "function_call"),
        ("name", Json.str "ls")])]) = none ∧
    extract_claude_message (Json.obj [("type", Json.str "tool_use")]) = none ∧
    extract_text (some (Json.arr
      [Json.obj [("type", Json.str "tool_call"), ("text", Json.str "noise")],
       Json.obj [("type", Json.str "text"), ("text", Json.str "ok")]])) =
      extract_text (some (Json.arr
        [Json.obj [("type", Json.str "text"), ("text", Json.str "ok")]])) := by
  refine ⟨?_, ?_, ?_⟩
  · exact tool_noise_filtered.1
      (Json.obj [("type", Json.str "response_item"),
        ("payload", Json.obj [("type", Json.str "function_call"),
          ("name", Json.str "ls")])]) "function_call" rfl (by decide)
  · exact (tool_noise_filtered.2.1
      (Json.obj [("type", Json.str "tool_use")]) "tool_use" rfl (by decide)).2
  · exact tool_noise_filtered.2.2
      (Json.obj [("type", Json.str "tool_call"), ("text", Json.str "noise")]) []
      [Json.obj [("type", Json.str "text"), ("text", Json.str "ok")]] (by decide)

/-- Modelled from the claim's wording (for comparison with the code-derived
`item_chunk`): a content item whose declared type is in the tool-noise set
contributes nothing; any other item contributes the first field among `text`,
`input_text`, `output_text` that is non-empty after trimming, individually
trimmed. -/
def spec_item_text (item : Json) : Option String :=
  if ((item.get "type").bind Json.asStr).any (fun t => TOOL_TYPES.contains t) then none
  else
    List.findSome?
      (fun key =>
        match (item.get key).bind Json.asStr with
        | some t => if strIsEmpty (strTrim t) then none else some (strTrim t)
        | none => none)
      ["text", "input_text", "output_text"]

theorem chain_eq (item : Json) :
    (match text_field item "text" with
     | some chunk => some chunk
     | none =>
       match text_field item "input_text" with
       | some chunk => some chunk
       | none => text_field item "output_text") =
    List.findSome?
      (fun key =>
        match (item.get key).bind Json.asStr with
        | some t => if strIsEmpty (strTrim t) then none else some (strTrim t)
        | none => none)
      ["text", "input_text", "output_text"] := by
  have hf : ∀ key, (match (item.get key).bind Json.asStr with
      | some t => if strIsEmpty (strTrim t) then none else some (strTrim t)
      | none => (none : Option String)) = text_field item key := fun _ => rfl
  rcases hA : text_field item "text" with _ | c1 <;>
    rcases hB : text_field item "input_text" with _ | c2 <;>
      rcases hC : text_field item "output_text" with _ | c3 <;>
        simp [List.findSome?, hf, hA, hB, hC]

theorem item_chunk_eq_spec (item : Json) : item_chunk item = spec_item_text item := by
  have hcond : tool_skip item = ((item.get "type").bind Json.asStr).any
      (fun t => TOOL_TYPES.contains t) := by
    unfold tool_skip
    rcases (item.get "type").bind Json.asStr with _ | t <;> rfl
  unfold item_chunk spec_item_text
  rw [hcond]
  by_cases hc : (((item.get "type").bind Json.asStr).any
      (fun t => TOOL_TYPES.contains t)) = true
  · rw [if_pos hc, if_pos hc]
  · rw [if_neg hc, if_neg hc]
    exact chain_eq item

/-- C8: content extraction handles the two shapes as specified — a plain string
content is used verbatim, and an array content is the blank-line-separated join
of the per-item contributions in original order, where each non-tool-noise item
contributes its first non-empty field among `text`, `input_text`, `output_text`
(individually trimmed) as captured verbatim by `spec_item_text`. -/
theorem extract_text_shapes :
    (∀ s, extract_text (some (Json.str s)) = s) ∧
    (∀ items, extract_text (some (Json.arr items)) =
      joinSep "\n\n" (items.filterMap spec_item_text)) := by
  constructor
  · intro s; rfl
  · intro items
    rw [extract_text_arr]
    have hfun : item_chunk = spec_item_text := funext item_chunk_eq_spec
    rw [hfun]

/-- Modelled from the claim's wording: the message body of the markdown
rendering — for the i-th message (1-based), a level-2 heading made of the index
and the role title, then the trimmed message text, then a blank-line
separator. -/
def render_body (i : Nat) : List ThreadMessage → String
  | [] => ""
  | m :: rest =>
    "## " ++ toString i ++ ". " ++ role_title m.role ++ "\n\n"
      ++ strTrim m.text ++ "\n\n" ++ render_body (i + 1) rest

theorem render_foldl (msgs : List ThreadMessage) :
    ∀ (k : Nat) (acc : String),
      (msgs.enumFrom k).foldl
        (fun output p =>
          output ++ ("## " ++ toString (p.fst + 1) ++ ". " ++ role_title p.snd.role
            ++ "\n\n") ++ strTrim p.snd.text ++ "\n\n") acc =
      acc ++ render_body (k + 1) msgs := by
  induction msgs with
  | nil =>
    intro k acc
    simp [render_body, String.append_empty]
  | cons m rest ih =>
    intro k acc
    rw [show (m :: rest).enumFrom k = (k, m) :: rest.enumFrom (k + 1) from rfl,
      List.foldl_cons, ih (k + 1), render_body]
    simp [String.append_assoc]

theorem render_markdown_ok (parse : String → Option Json) (uri : ThreadUri)
    (source_path : String) (lines : List String) (msgs : List ThreadMessage)
    (h : extract_messages parse uri.provider source_path lines = Except.ok msgs) :
    render_markdown parse uri source_path lines =
      (if msgs.isEmpty then
        Except.ok (("# Thread\n\n" ++ ("- URI: `" ++ uri.as_string ++ "`\n")
          ++ ("- Source: `" ++ source_path ++ "`\n\n"))
          ++ "_No user/assistant messages found._\n")
      else
        Except.ok ((msgs.enum).foldl
          (fun output p =>
            output ++ ("## " ++ toString (p.fst + 1) ++ ". " ++ role_title p.snd.role
              ++ "\n\n") ++ strTrim p.snd.text ++ "\n\n")
          ("# Thread\n\n" ++ ("- URI: `" ++ uri.as_string ++ "`\n")
            ++ ("- Source: `" ++ source_path ++ "`\n\n")))) := by
  unfold render_markdown
  rw [h]

/-- C9: when extraction succeeds, `render_markdown` succeeds and returns the
`# Thread` header naming the URI and the source path, followed — when the
extracted sequence is empty — by the fixed placeholder sentence (still a
success, not an error), and otherwise by, for the i-th message (1-based) in
extraction order, the level-2 heading `## <i>. User` or `## <i>. Assistant`
according to the role, the trimmed message text, and a blank-line separator. -/
theorem render_markdown_structure (parse : String → Option Json) (uri : ThreadUri)
    (source_path : String) (lines : List String) (msgs : List ThreadMessage)
    (h : extract_messages parse uri.provider source_path lines = Except.ok msgs) :
    render_markdown parse uri source_path lines = Except.ok
      (("# Thread\n\n" ++ ("- URI: `" ++ uri.as_string ++ "`\n")
        ++ ("- Source: `" ++ source_path ++ "`\n\n")) ++
       (if msgs.isEmpty then "_No user/assistant messages found._\n"
        else render_body 1 msgs)) := by
  rw [render_markdown_ok parse uri source_path lines msgs h]
  by_cases hm : msgs.isEmpty = true
  · rw [if_pos hm, if_pos hm]
  · rw [if_neg hm, if_neg hm]
    rw [show msgs.enum = msgs.enumFrom 0 from rfl, render_foldl msgs 0]

theorem render_markdown_structure_witness :
    render_markdown (fun _ => none) ⟨ProviderKind.Codex, "abc"⟩ "src" [] =
      Except.ok ("# Thread\n\n- URI: `codex://abc`\n- Source: `src`\n\n_No user/assistant messages found._\n") := by
  rw [render_markdown_structure (fun _ => none) ⟨ProviderKind.Codex, "abc"⟩ "src"
    [] [] rfl]
  rfl

end Turl
